import Mathlib

/-!
Shallow embedding of the crossword constraint-satisfaction solver of
src/crossword/generate.py (class CrosswordCreator).

The collaborator class Crossword (file crossword.py) is not part of the
sources; following the specification, a puzzle structure supplies the set of
slots (variables), the candidate word list, and a read-only overlap relation
returning either the pair of shared offsets or nothing.  The neighbor
relation is derived from it.

Conventions of the embedding:
* Python strings are lists of characters; `w[i]` becomes `w.getD i ' '`
  (the source only ever indexes in range, where both agree).
* The mutable dict `self.domains` (whose key set is exactly the puzzle's
  variables and never changes) is a total function from variables to word
  lists; the in-place mutations of the source become functional updates.
* Python set subtraction `s -= to_remove` becomes `removeAll`.
* The unordered iteration of Python sets is pinned to the order of the
  embedding's lists (the spec flags this order as unspecified).
* The AC-3 while-loop and the recursive backtracking search are driven by an
  explicit fuel argument; fuel exhaustion yields `none` (for AC-3, an
  `Option` result distinct from both of the source's outcomes).  The fuel
  passed by the wrappers is large enough that it is never exhausted (for
  AC-3 this is proved below as `ac3_total`; for `backtrack` the recursion
  depth is bounded by the number of unassigned variables, below the chosen
  fuel).
-/

inductive Direction where
  | across
  | down
deriving DecidableEq

structure Variable where
  i : Nat
  j : Nat
  direction : Direction
  length : Nat
deriving DecidableEq

abbrev Word := List Char

abbrev Domains := Variable → List Word

abbrev Assignment := List (Variable × Word)

/-- Modelled from the spec: the Puzzle Structure collaborator (class
Crossword of crossword.py, not among the sources) supplies the set of slots,
the candidate word list and the precomputed overlap relation
`overlaps(x, y) -> optional (offset_in_x, offset_in_y)`. -/
structure Crossword where
  vars : List Variable   -- the source's `variables` (a reserved word in Lean)
  words : List Word
  overlaps : Variable → Variable → Option (Nat × Nat)

/-- Modelled from the spec: `y` is a neighbor of `x` iff they overlap and
`x ≠ y` (Crossword.neighbors of the missing crossword.py). -/
def Crossword.neighbors (c : Crossword) (x : Variable) : List Variable :=
  c.vars.filter (fun y => decide (y ≠ x) && (c.overlaps x y).isSome)

/-- `self.domains = {var: self.crossword.words.copy() for var in variables}`. -/
def initDomains (c : Crossword) : Domains := fun _ => c.words

/-- Functional update standing in for `self.domains[x] = ...`. -/
def updateD (d : Domains) (x : Variable) (l : List Word) : Domains :=
  fun v => if v = x then l else d v

/-- Python set subtraction `s - toRemove` on the list representation. -/
def removeAll (l toRemove : List Word) : List Word :=
  l.filter (fun w => !(decide (w ∈ toRemove)))

/-- CrosswordCreator.enforce_node_consistency: for every variable remove the
words whose length differs from the variable's length (the for-loop over the
domain dict, rendered as recursion over the variable list). -/
def enfGo : List Variable → Domains → Domains
  | [], d => d
  | var :: rest, d =>
      enfGo rest
        (updateD d var
          (removeAll (d var) ((d var).filter (fun w => decide (w.length ≠ var.length)))))

def enforce_node_consistency (c : Crossword) (d : Domains) : Domains :=
  enfGo c.vars d

/-- `any(x_word[i] == y_word[j] for y_word in self.domains[y])`. -/
def hasSupport (i j : Nat) (w : Word) (ys : List Word) : Bool :=
  ys.any (fun w2 => decide (w.getD i ' ' = w2.getD j ' '))

/-- CrosswordCreator.revise: the overlap of `x` and `y` is looked up; with no
overlap nothing happens and the result is `false`; otherwise every word of
`domains[x]` without support in `domains[y]` is removed, and the result says
whether anything was removed. -/
def revise (c : Crossword) (d : Domains) (x y : Variable) : Bool × Domains :=
  match c.overlaps x y with
  | none => (false, d)
  | some (i, j) =>
      if ((d x).filter (fun w => !hasSupport i j w (d y))).isEmpty then (false, d)
      else (true, updateD d x
        (removeAll (d x) ((d x).filter (fun w => !hasSupport i j w (d y)))))

/-- The seed queue of ac3 when no arcs are given:
`[(x, y) for x in self.domains for y in self.crossword.neighbors(x) if x != y]`. -/
def initialArcs (c : Crossword) : List (Variable × Variable) :=
  c.vars.flatMap
    (fun x => ((c.neighbors x).filter (fun y => decide (x ≠ y))).map (fun y => (x, y)))

/-- The while-loop of CrosswordCreator.ac3, with explicit fuel; `none` on
fuel exhaustion (which never happens with the fuel chosen by `ac3`). -/
def ac3LoopF (c : Crossword) : Nat → Domains → List (Variable × Variable) →
    Option (Bool × Domains)
  | 0, _, _ => none
  | fuel + 1, d, q =>
      match q with
      | [] => some (true, d)
      | (x, y) :: rest =>
          if (revise c d x y).1 then
            if ((revise c d x y).2 x).isEmpty then some (false, (revise c d x y).2)
            else ac3LoopF c fuel (revise c d x y).2
              (rest ++ ((c.neighbors x).filter (fun z => decide (z ≠ y))).map (fun z => (z, x)))
          else ac3LoopF c fuel d rest

def totalSize (c : Crossword) (d : Domains) : Nat :=
  (c.vars.map (fun v => (d v).length)).sum

def ac3Fuel (c : Crossword) (d : Domains) (q : List (Variable × Variable)) : Nat :=
  q.length + totalSize c d * (c.vars.length + 1) + 1

/-- CrosswordCreator.ac3.  `deque(arcs) if arcs else deque([...])`: a missing
argument and an empty list both seed the queue with every neighbor arc. -/
def ac3 (c : Crossword) (d : Domains) (arcs : Option (List (Variable × Variable))) :
    Option (Bool × Domains) :=
  match arcs with
  | none => ac3LoopF c (ac3Fuel c d (initialArcs c)) d (initialArcs c)
  | some l =>
      if l.isEmpty then ac3LoopF c (ac3Fuel c d (initialArcs c)) d (initialArcs c)
      else ac3LoopF c (ac3Fuel c d l) d l

/-- Lookup in the assignment dict (`var in assignment`, `assignment[var]`). -/
def lookupA (a : Assignment) (v : Variable) : Option Word :=
  match a with
  | [] => none
  | (u, w) :: rest => if u = v then some w else lookupA rest v

/-- CrosswordCreator.assignment_complete. -/
def assignment_complete (c : Crossword) (a : Assignment) : Bool :=
  c.vars.all (fun var => (lookupA a var).isSome)

/-- The neighbor-conflict loop inside CrosswordCreator.consistent: for every
neighbor of `var` present in the assignment, the two assigned words must
agree at the overlap offsets (the branches returning `true` on a missing
binding for `var` are unreachable: `var` is always a key). -/
def neighborsOk (c : Crossword) (a : Assignment) (var : Variable) : Bool :=
  (c.neighbors var).all (fun nb =>
    match lookupA a nb with
    | none => true
    | some wn =>
        match c.overlaps var nb with
        | none => true
        | some (i, j) =>
            match lookupA a var with
            | none => true
            | some wv => decide (wv.getD i ' ' = wn.getD j ' '))

/-- The item loop of CrosswordCreator.consistent, carrying the growing set
`words` of already-seen words. -/
def consistentGo (c : Crossword) (a : Assignment) :
    List (Variable × Word) → List Word → Bool
  | [], _ => true
  | (var, word) :: rest, seen =>
      if word.length ≠ var.length then false
      else if word ∈ seen then false
      else if neighborsOk c a var then consistentGo c a rest (word :: seen)
      else false

/-- CrosswordCreator.consistent. -/
def consistent (c : Crossword) (a : Assignment) : Bool :=
  consistentGo c a a []

/-- constraint_count inside CrosswordCreator.order_domain_values: over every
unassigned neighbor, count the neighbor's candidates that disagree with
`value` at the overlap offsets. -/
def constraint_count (c : Crossword) (doms : Domains) (a : Assignment)
    (var : Variable) (value : Word) : Nat :=
  ((c.neighbors var).map (fun nb =>
    if (lookupA a nb).isSome then 0
    else
      match c.overlaps var nb with
      | none => 0
      | some (i, j) =>
          ((doms nb).filter (fun nw => decide (nw.getD j ' ' ≠ value.getD i ' '))).length)).sum

/-- Stable insertion standing in for Python's stable `sorted(..., key=...)`:
a word is inserted after all words of equal or smaller count. -/
def insertByCount (cnt : Word → Nat) (w : Word) : List Word → List Word
  | [] => [w]
  | u :: rest => if cnt w ≤ cnt u then w :: u :: rest else u :: insertByCount cnt w rest

def sortByCount (cnt : Word → Nat) : List Word → List Word
  | [] => []
  | w :: rest => insertByCount cnt w (sortByCount cnt rest)

/-- CrosswordCreator.order_domain_values. -/
def order_domain_values (c : Crossword) (doms : Domains) (var : Variable)
    (a : Assignment) : List Word :=
  sortByCount (constraint_count c doms a var) (doms var)

/-- The key of select_unassigned_variable:
`(len(self.domains[var]), -len(self.crossword.neighbors(var)))`. -/
def svKey (c : Crossword) (doms : Domains) (v : Variable) : Nat × Int :=
  ((doms v).length, -(Int.ofNat (c.neighbors v).length))

/-- Lexicographic strict comparison of the selection keys (Python tuple `<`). -/
def keyLt (a b : Nat × Int) : Bool :=
  decide (a.1 < b.1) || (decide (a.1 = b.1) && decide (a.2 < b.2))

/-- Python's `min(..., key=...)`: first element with minimal key. -/
def argminBy (key : Variable → Nat × Int) : List Variable → Option Variable
  | [] => none
  | v :: rest =>
      some (rest.foldl (fun best u => if keyLt (key u) (key best) then u else best) v)

/-- CrosswordCreator.select_unassigned_variable (`none` only on a complete
assignment, where the source never calls it). -/
def select_unassigned_variable (c : Crossword) (doms : Domains) (a : Assignment) :
    Option Variable :=
  argminBy (svKey c doms) (c.vars.filter (fun v => (lookupA a v).isNone))

/-- Python truthiness of `if result:` on an optional dict: `None` and the
empty dict are falsy. -/
def truthy : Option Assignment → Bool
  | none => false
  | some a => !a.isEmpty

/-- The candidate loop of CrosswordCreator.backtrack: each value extends the
caller's assignment `a` into the fresh copy `(var, w) :: a` (the source's
`assignment.copy()` followed by `new_assignment[var] = value`), and a truthy
recursive result is returned at once. -/
def tryValuesWith (bt : Assignment → Option Assignment) (c : Crossword)
    (a : Assignment) (var : Variable) : List Word → Option Assignment
  | [] => none
  | w :: rest =>
      if consistent c ((var, w) :: a) then
        if truthy (bt ((var, w) :: a)) then bt ((var, w) :: a)
        else tryValuesWith bt c a var rest
      else tryValuesWith bt c a var rest

/-- CrosswordCreator.backtrack with explicit fuel (the recursion depth of the
source is bounded by the number of unassigned variables). -/
def backtrackF (c : Crossword) (doms : Domains) : Nat → Assignment → Option Assignment
  | 0 => fun _ => none
  | fuel + 1 => fun a =>
      if assignment_complete c a then some a
      else
        match select_unassigned_variable c doms a with
        | none => none
        | some var =>
            tryValuesWith (backtrackF c doms fuel) c a var
              (order_domain_values c doms var a)

/-- CrosswordCreator.solve: node consistency, then ac3 (whose Boolean result
the source discards), then backtracking from the empty assignment.  The
`none` branch of the match is unreachable (`ac3_total` below). -/
def solve (c : Crossword) : Option Assignment :=
  match ac3 c (enforce_node_consistency c (initDomains c)) none with
  | some r => backtrackF c r.2 (c.vars.length + 1) []
  | none =>
      backtrackF c (enforce_node_consistency c (initDomains c)) (c.vars.length + 1) []

/-- Number of invocations of backtrack performed by the candidate loop
(mirrors `tryValuesWith`; a non-truthy result hides the calls made below it
only from the result, not from the count). -/
def tryValuesCalls (bt : Assignment → Option Assignment)
    (btc : Assignment → Nat) (c : Crossword) (a : Assignment) (var : Variable) :
    List Word → Nat
  | [] => 0
  | w :: rest =>
      if consistent c ((var, w) :: a) then
        if truthy (bt ((var, w) :: a)) then btc ((var, w) :: a)
        else btc ((var, w) :: a) + tryValuesCalls bt btc c a var rest
      else tryValuesCalls bt btc c a var rest

/-- Number of invocations of backtrack that a call `backtrack(a)` performs,
itself included (mirrors `backtrackF`). -/
def backtrackCalls (c : Crossword) (doms : Domains) : Nat → Assignment → Nat
  | 0 => fun _ => 1
  | fuel + 1 => fun a =>
      if assignment_complete c a then 1
      else
        match select_unassigned_variable c doms a with
        | none => 1
        | some var =>
            1 + tryValuesCalls (backtrackF c doms fuel) (backtrackCalls c doms fuel)
              c a var (order_domain_values c doms var a)

/-- Number of invocations of backtrack performed by `solve` (mirrors `solve`:
the source calls backtrack unconditionally). -/
def solveBacktrackCalls (c : Crossword) : Nat :=
  match ac3 c (enforce_node_consistency c (initDomains c)) none with
  | some r => backtrackCalls c r.2 (c.vars.length + 1) []
  | none =>
      backtrackCalls c (enforce_node_consistency c (initDomains c)) (c.vars.length + 1) []

/-- Keys of an assignment are distinct (dict semantics). -/
def keysNodup (a : Assignment) : Prop := (a.map Prod.fst).Nodup

/-- Decidable symmetry of the overlap relation on the puzzle's variables (the
spec declares the collaborator's overlap relation symmetric). -/
def overlapsSymmB (c : Crossword) : Bool :=
  c.vars.all (fun x => c.vars.all (fun y =>
    match c.overlaps x y with
    | none => true
    | some (i, j) => decide (c.overlaps y x = some (j, i))))

/-- The arc-consistency property of the pair `(x, y)`: every word of `x`'s
domain has a supporting word in `y`'s domain at the overlap offsets. -/
def arcOk (c : Crossword) (d : Domains) (x y : Variable) : Prop :=
  ∀ i j, c.overlaps x y = some (i, j) → ∀ w ∈ d x, hasSupport i j w (d y) = true

/-! Concrete instances used by the witnesses and counterexamples. -/

/-- A single across slot of length 2. -/
def exA1 : Variable := ⟨0, 0, Direction.across, 2⟩

/-- One-slot puzzle with candidate words ab and cd. -/
def exC1 : Crossword := ⟨[exA1], [['a', 'b'], ['c', 'd']], fun _ _ => none⟩

/-- A single slot of length 1 with no neighbors. -/
def exV2 : Variable := ⟨0, 0, Direction.across, 1⟩

/-- One-slot puzzle with an empty word list. -/
def exC2 : Crossword := ⟨[exV2], [], fun _ _ => none⟩

def exA3 : Variable := ⟨0, 0, Direction.across, 3⟩

def exB3 : Variable := ⟨0, 0, Direction.down, 2⟩

/-- Two crossing slots of lengths 3 and 2 sharing their first letters; the
word list has only words of length 2, so node consistency empties the domain
of `exA3` and the arc-consistency pass then fails. -/
def exC3 : Crossword :=
  ⟨[exA3, exB3], [['a', 'b'], ['c', 'd']],
   fun x y =>
     if x = exA3 ∧ y = exB3 then some (0, 0)
     else if x = exB3 ∧ y = exA3 then some (0, 0)
     else none⟩

def exA4 : Variable := ⟨0, 0, Direction.across, 2⟩

def exB4 : Variable := ⟨0, 1, Direction.down, 2⟩

/-- Two crossing slots of length 2 sharing their first letters. -/
def exC4 : Crossword :=
  ⟨[exA4, exB4], [['a', 'b'], ['x', 'y'], ['a', 'c']],
   fun x y =>
     if x = exA4 ∧ y = exB4 then some (0, 0)
     else if x = exB4 ∧ y = exA4 then some (0, 0)
     else none⟩

/-- Domains for `exC4` on which the arc-consistency pass prunes xy. -/
def exD4 : Domains := fun v => if v = exA4 then [['a', 'b'], ['x', 'y']] else [['a', 'c']]

/-! Basic lemmas about the domain operations. -/

@[simp] theorem updateD_self (d : Domains) (x : Variable) (l : List Word) :
    updateD d x l x = l := by
  simp [updateD]

theorem updateD_ne (d : Domains) (x : Variable) (l : List Word) {v : Variable}
    (h : v ≠ x) : updateD d x l v = d v := by
  simp [updateD, h]

theorem removeAll_neg_filter (l : List Word) (p : Word → Bool) :
    removeAll l (l.filter (fun w => !(p w))) = l.filter p := by
  unfold removeAll
  apply List.filter_congr
  intro w hw
  by_cases hp : p w = true
  · simp [List.mem_filter, hp]
  · simp [List.mem_filter, hw, hp]

theorem enfGo_apply (lvars : List Variable) (d : Domains) (v : Variable) :
    enfGo lvars d v =
      if v ∈ lvars then (d v).filter (fun w => decide (w.length = v.length))
      else d v := by
  induction lvars generalizing d with
  | nil => simp [enfGo]
  | cons u rest ih =>
      have hker :
          removeAll (d u) ((d u).filter (fun w => decide (w.length ≠ u.length))) =
            (d u).filter (fun w => decide (w.length = u.length)) := by
        have h1 : ((d u).filter (fun w => decide (w.length ≠ u.length))) =
            (d u).filter (fun w => !(decide (w.length = u.length))) := by
          apply List.filter_congr
          intro w _
          simp
        rw [h1, removeAll_neg_filter]
      by_cases hv : v = u
      · subst hv
        by_cases hm : v ∈ rest
        · simp only [enfGo, ih, hm, if_pos, List.mem_cons, true_or, updateD_self, hker]
          simp [List.filter_filter]
        · simp only [enfGo, ih, hm, if_neg, updateD_self, hker, List.mem_cons]
          simp
      · simp only [enfGo, ih, updateD_ne _ _ _ hv, List.mem_cons]
        have : (v = u ∨ v ∈ rest) ↔ v ∈ rest := by
          constructor
          · rintro (h | h)
            · exact absurd h hv
            · exact h
          · exact Or.inr
        simp [this]

theorem enforce_apply (c : Crossword) (d : Domains) (v : Variable) :
    enforce_node_consistency c d v =
      if v ∈ c.vars then (d v).filter (fun w => decide (w.length = v.length))
      else d v :=
  enfGo_apply c.vars d v

/-! Characterization of `revise`. -/

theorem revise_none (c : Crossword) (d : Domains) (x y : Variable)
    (h : c.overlaps x y = none) : revise c d x y = (false, d) := by
  simp [revise, h]

theorem revise_some (c : Crossword) (d : Domains) (x y : Variable) (i j : Nat)
    (h : c.overlaps x y = some (i, j)) :
    revise c d x y =
      if (d x).all (fun w => hasSupport i j w (d y)) then (false, d)
      else (true, updateD d x ((d x).filter (fun w => hasSupport i j w (d y)))) := by
  unfold revise
  rw [h]
  have hker : removeAll (d x) ((d x).filter (fun w => !hasSupport i j w (d y))) =
      (d x).filter (fun w => hasSupport i j w (d y)) :=
    removeAll_neg_filter (d x) (fun w => hasSupport i j w (d y))
  by_cases hall : (d x).all (fun w => hasSupport i j w (d y)) = true
  · have hnil : (d x).filter (fun w => !hasSupport i j w (d y)) = [] := by
      rw [List.filter_eq_nil_iff]
      intro w hw
      simp [(List.all_eq_true.mp hall) w hw]
    simp [hnil, hall]
  · have hne : (d x).filter (fun w => !hasSupport i j w (d y)) ≠ [] := by
      intro hnil
      apply hall
      rw [List.all_eq_true]
      intro w hw
      by_contra hns
      have : w ∈ (d x).filter (fun w => !hasSupport i j w (d y)) := by
        rw [List.mem_filter]
        exact ⟨hw, by simp [Bool.eq_false_iff.mpr hns]⟩
      rw [hnil] at this
      exact absurd this (List.not_mem_nil w)
    rw [if_neg hall]
    simp only [List.isEmpty_iff, hne, if_neg, hker]
    simp [hne]

theorem revise_subset (c : Crossword) (d : Domains) (x y : Variable) (v : Variable)
    (w : Word) (hw : w ∈ (revise c d x y).2 v) : w ∈ d v := by
  cases hov : c.overlaps x y with
  | none => rw [revise_none c d x y hov] at hw; exact hw
  | some p =>
      obtain ⟨i, j⟩ := p
      rw [revise_some c d x y i j hov] at hw
      by_cases hall : (d x).all (fun w => hasSupport i j w (d y)) = true
      · rw [if_pos hall] at hw; exact hw
      · rw [if_neg hall] at hw
        have hw2 : w ∈ updateD d x ((d x).filter (fun w => hasSupport i j w (d y))) v := hw
        by_cases hv : v = x
        · subst hv
          rw [updateD_self] at hw2
          exact (List.mem_filter.mp hw2).1
        · rwa [updateD_ne _ _ _ hv] at hw2

theorem revise_false_snd (c : Crossword) (d : Domains) (x y : Variable)
    (h : (revise c d x y).1 = false) : (revise c d x y).2 = d := by
  cases hov : c.overlaps x y with
  | none => rw [revise_none c d x y hov]
  | some p =>
      obtain ⟨i, j⟩ := p
      rw [revise_some c d x y i j hov]
      rw [revise_some c d x y i j hov] at h
      by_cases hall : (d x).all (fun w => hasSupport i j w (d y)) = true
      · rw [if_pos hall]
      · rw [if_neg hall] at h
        simp at h

theorem revise_true_spec (c : Crossword) (d : Domains) (x y : Variable)
    (h : (revise c d x y).1 = true) :
    ∃ i j, c.overlaps x y = some (i, j) ∧
      (revise c d x y).2 = updateD d x ((d x).filter (fun w => hasSupport i j w (d y))) ∧
      ∃ w ∈ d x, hasSupport i j w (d y) = false := by
  cases hov : c.overlaps x y with
  | none => rw [revise_none c d x y hov] at h; simp at h
  | some p =>
      obtain ⟨i, j⟩ := p
      rw [revise_some c d x y i j hov] at h
      by_cases hall : (d x).all (fun w => hasSupport i j w (d y)) = true
      · rw [if_pos hall] at h; simp at h
      · refine ⟨i, j, rfl, ?_, ?_⟩
        · rw [revise_some c d x y i j hov, if_neg hall]
        · rw [List.all_eq_true] at hall
          push_neg at hall
          obtain ⟨w, hw, hws⟩ := hall
          exact ⟨w, hw, Bool.eq_false_iff.mpr hws⟩

theorem ac3LoopF_zero (c : Crossword) (d : Domains) (q : List (Variable × Variable)) :
    ac3LoopF c 0 d q = none := rfl

theorem ac3LoopF_nil (c : Crossword) (fuel : Nat) (d : Domains) :
    ac3LoopF c (fuel + 1) d [] = some (true, d) := rfl

theorem ac3LoopF_cons_nochange (c : Crossword) (fuel : Nat) (d : Domains)
    (x y : Variable) (rest : List (Variable × Variable))
    (h : (revise c d x y).1 = false) :
    ac3LoopF c (fuel + 1) d ((x, y) :: rest) = ac3LoopF c fuel d rest := by
  simp [ac3LoopF, h]

theorem ac3LoopF_cons_fail (c : Crossword) (fuel : Nat) (d : Domains)
    (x y : Variable) (rest : List (Variable × Variable))
    (h : (revise c d x y).1 = true) (he : ((revise c d x y).2 x).isEmpty = true) :
    ac3LoopF c (fuel + 1) d ((x, y) :: rest) = some (false, (revise c d x y).2) := by
  simp [ac3LoopF, h, he]

theorem ac3LoopF_cons_cont (c : Crossword) (fuel : Nat) (d : Domains)
    (x y : Variable) (rest : List (Variable × Variable))
    (h : (revise c d x y).1 = true) (he : ((revise c d x y).2 x).isEmpty = false) :
    ac3LoopF c (fuel + 1) d ((x, y) :: rest) =
      ac3LoopF c fuel (revise c d x y).2
        (rest ++ ((c.neighbors x).filter (fun z => decide (z ≠ y))).map (fun z => (z, x))) := by
  simp [ac3LoopF, h, he]

theorem mem_neighbors (c : Crossword) (x v : Variable) :
    v ∈ c.neighbors x ↔ v ∈ c.vars ∧ v ≠ x ∧ (c.overlaps x v).isSome := by
  simp [Crossword.neighbors, List.mem_filter, and_assoc]

theorem neighbors_subset_vars (c : Crossword) (x v : Variable)
    (h : v ∈ c.neighbors x) : v ∈ c.vars :=
  ((mem_neighbors c x v).mp h).1

/-- Every domain final after a failing pass but empty was nonempty at entry
only if the loop emptied it; the loop returns false exactly from the
emptiness test after a shrinking revision. -/
theorem ac3LoopF_false_empties (c : Crossword) :
    ∀ fuel (d : Domains) (q : List (Variable × Variable)) (d2 : Domains),
      (∀ p ∈ q, p.1 ∈ c.vars) →
      ac3LoopF c fuel d q = some (false, d2) →
      ∃ v ∈ c.vars, d v ≠ [] ∧ d2 v = [] := by
  intro fuel
  induction fuel with
  | zero => intro d q d2 hq h; rw [ac3LoopF_zero] at h; exact absurd h (by simp)
  | succ fuel ih =>
      intro d q d2 hq h
      cases q with
      | nil => rw [ac3LoopF_nil] at h; simp [Prod.ext_iff] at h
      | cons p rest =>
          obtain ⟨x, y⟩ := p
          by_cases hch : (revise c d x y).1 = true
          · obtain ⟨i, j, hov, hd1, w0, hw0, hws⟩ := revise_true_spec c d x y hch
            by_cases he : ((revise c d x y).2 x).isEmpty = true
            · rw [ac3LoopF_cons_fail c fuel d x y rest hch he] at h
              have hd2 : (revise c d x y).2 = d2 :=
                congrArg Prod.snd (Option.some.inj h)
              refine ⟨x, hq (x, y) (List.mem_cons_self _ _), ?_, ?_⟩
              · exact List.ne_nil_of_mem hw0
              · rw [← hd2]
                exact List.isEmpty_iff.mp he
            · have he2 : ((revise c d x y).2 x).isEmpty = false :=
                Bool.eq_false_iff.mpr he
              rw [ac3LoopF_cons_cont c fuel d x y rest hch he2] at h
              have hq2 : ∀ p ∈ rest ++
                  ((c.neighbors x).filter (fun z => decide (z ≠ y))).map (fun z => (z, x)),
                  p.1 ∈ c.vars := by
                intro p hp
                rcases List.mem_append.mp hp with hp1 | hp2
                · exact hq p (List.mem_cons_of_mem _ hp1)
                · obtain ⟨z, hz, hzz⟩ := List.mem_map.mp hp2
                  have hz2 := List.mem_filter.mp hz
                  rw [← hzz]
                  exact neighbors_subset_vars c x z hz2.1
              obtain ⟨v, hv, hne, hemp⟩ := ih (revise c d x y).2 _ d2 hq2 h
              refine ⟨v, hv, ?_, hemp⟩
              intro hnil
              apply hne
              rw [List.eq_nil_iff_forall_not_mem]
              intro w hw
              have := revise_subset c d x y v w hw
              rw [hnil] at this
              exact absurd this (List.not_mem_nil w)
          · have hch2 : (revise c d x y).1 = false := Bool.eq_false_iff.mpr hch
            rw [ac3LoopF_cons_nochange c fuel d x y rest hch2] at h
            have hfs := revise_false_snd c d x y hch2
            exact ih d rest d2 (fun p hp => hq p (List.mem_cons_of_mem _ hp)) h

/-- A successful pass never turns a nonempty domain into an empty one. -/
theorem ac3LoopF_true_preserves (c : Crossword) :
    ∀ fuel (d : Domains) (q : List (Variable × Variable)) (d2 : Domains),
      ac3LoopF c fuel d q = some (true, d2) →
      ∀ v, d v ≠ [] → d2 v ≠ [] := by
  intro fuel
  induction fuel with
  | zero => intro d q d2 h; rw [ac3LoopF_zero] at h; exact absurd h (by simp)
  | succ fuel ih =>
      intro d q d2 h v hv
      cases q with
      | nil =>
          rw [ac3LoopF_nil] at h
          have hd2 : d = d2 := congrArg Prod.snd (Option.some.inj h)
          rw [← hd2]
          exact hv
      | cons p rest =>
          obtain ⟨x, y⟩ := p
          by_cases hch : (revise c d x y).1 = true
          · obtain ⟨i, j, hov, hd1, w0, hw0, hws⟩ := revise_true_spec c d x y hch
            by_cases he : ((revise c d x y).2 x).isEmpty = true
            · rw [ac3LoopF_cons_fail c fuel d x y rest hch he] at h
              simp [Prod.ext_iff] at h
            · have he2 : ((revise c d x y).2 x).isEmpty = false :=
                Bool.eq_false_iff.mpr he
              rw [ac3LoopF_cons_cont c fuel d x y rest hch he2] at h
              refine ih (revise c d x y).2 _ d2 h v ?_
              by_cases hvx : v = x
              · subst hvx
                intro hnil
                rw [hnil] at he2
                simp [List.isEmpty_iff] at he2
              · rw [hd1, updateD_ne _ _ _ hvx]
                exact hv
          · have hch2 : (revise c d x y).1 = false := Bool.eq_false_iff.mpr hch
            rw [ac3LoopF_cons_nochange c fuel d x y rest hch2] at h
            exact ih d rest d2 h v hv

/-- Domains only ever shrink along the loop. -/
theorem ac3LoopF_subset (c : Crossword) :
    ∀ fuel (d : Domains) (q : List (Variable × Variable)) (b : Bool) (d2 : Domains),
      ac3LoopF c fuel d q = some (b, d2) →
      ∀ v w, w ∈ d2 v → w ∈ d v := by
  intro fuel
  induction fuel with
  | zero => intro d q b d2 h; rw [ac3LoopF_zero] at h; exact absurd h (by simp)
  | succ fuel ih =>
      intro d q b d2 h v w hw
      cases q with
      | nil =>
          rw [ac3LoopF_nil] at h
          have hd2 : d = d2 := congrArg Prod.snd (Option.some.inj h)
          rw [hd2]
          exact hw
      | cons p rest =>
          obtain ⟨x, y⟩ := p
          by_cases hch : (revise c d x y).1 = true
          · by_cases he : ((revise c d x y).2 x).isEmpty = true
            · rw [ac3LoopF_cons_fail c fuel d x y rest hch he] at h
              simp [Prod.ext_iff] at h
              rw [← h.2] at hw
              exact revise_subset c d x y v w hw
            · have he2 : ((revise c d x y).2 x).isEmpty = false :=
                Bool.eq_false_iff.mpr he
              rw [ac3LoopF_cons_cont c fuel d x y rest hch he2] at h
              exact revise_subset c d x y v w (ih (revise c d x y).2 _ b d2 h v w hw)
          · have hch2 : (revise c d x y).1 = false := Bool.eq_false_iff.mpr hch
            rw [ac3LoopF_cons_nochange c fuel d x y rest hch2] at h
            exact ih d rest b d2 h v w hw

theorem hasSupport_iff (i j : Nat) (w : Word) (ys : List Word) :
    hasSupport i j w ys = true ↔ ∃ w2 ∈ ys, w.getD i ' ' = w2.getD j ' ' := by
  simp [hasSupport, List.any_eq_true]

theorem revise_false_arcOk (c : Crossword) (d : Domains) (x y : Variable)
    (h : (revise c d x y).1 = false) : arcOk c d x y := by
  intro i j hov w hw
  rw [revise_some c d x y i j hov] at h
  by_cases hall : (d x).all (fun w => hasSupport i j w (d y)) = true
  · exact (List.all_eq_true.mp hall) w hw
  · rw [if_neg hall] at h
    simp at h

theorem overlapsSymm_spec (c : Crossword) (h : overlapsSymmB c = true) :
    ∀ x ∈ c.vars, ∀ y ∈ c.vars, ∀ i j,
      c.overlaps x y = some (i, j) → c.overlaps y x = some (j, i) := by
  intro x hx y hy i j hov
  have h1 := (List.all_eq_true.mp h) x hx
  have h2 := (List.all_eq_true.mp h1) y hy
  rw [hov] at h2
  exact of_decide_eq_true h2

theorem mem_initialArcs (c : Crossword) (p : Variable × Variable)
    (hp : p ∈ initialArcs c) : p.1 ∈ c.vars ∧ p.2 ∈ c.neighbors p.1 := by
  obtain ⟨x, hx, hmem⟩ := List.mem_flatMap.mp hp
  obtain ⟨y, hy, heq⟩ := List.mem_map.mp hmem
  have hy2 := (List.mem_filter.mp hy).1
  rw [← heq]
  exact ⟨hx, hy2⟩

theorem initialArcs_complete (c : Crossword) (x : Variable) (hx : x ∈ c.vars)
    (y : Variable) (hy : y ∈ c.neighbors x) : (x, y) ∈ initialArcs c := by
  have hyx : y ≠ x := ((mem_neighbors c x y).mp hy).2.1
  apply List.mem_flatMap.mpr
  refine ⟨x, hx, ?_⟩
  apply List.mem_map.mpr
  refine ⟨y, ?_, rfl⟩
  apply List.mem_filter.mpr
  exact ⟨hy, by simp [hyx.symm]⟩

/-- The AC-3 loop invariant: every neighbor arc is either still queued or
already consistent; on success every neighbor arc of the final domains is
consistent. -/
theorem ac3LoopF_arc_sound (c : Crossword)
    (hsym : ∀ x ∈ c.vars, ∀ y ∈ c.vars, ∀ i j,
      c.overlaps x y = some (i, j) → c.overlaps y x = some (j, i)) :
    ∀ fuel (d : Domains) (q : List (Variable × Variable)) (d2 : Domains),
      (∀ p ∈ q, p.1 ∈ c.vars ∧ p.2 ∈ c.neighbors p.1) →
      (∀ x ∈ c.vars, ∀ y ∈ c.neighbors x, (x, y) ∈ q ∨ arcOk c d x y) →
      ac3LoopF c fuel d q = some (true, d2) →
      ∀ x ∈ c.vars, ∀ y ∈ c.neighbors x, arcOk c d2 x y := by
  intro fuel
  induction fuel with
  | zero => intro d q d2 hq hinv h; rw [ac3LoopF_zero] at h; exact absurd h (by simp)
  | succ fuel ih =>
      intro d q d2 hq hinv h
      cases q with
      | nil =>
          rw [ac3LoopF_nil] at h
          have hd2 : d = d2 := congrArg Prod.snd (Option.some.inj h)
          intro x hx y hy
          rcases hinv x hx y hy with hmem | hok
          · exact absurd hmem (List.not_mem_nil _)
          · rw [← hd2]
            exact hok
      | cons p rest =>
          obtain ⟨x0, y0⟩ := p
          have hx0 : x0 ∈ c.vars := (hq _ (List.mem_cons_self _ _)).1
          have hy0 : y0 ∈ c.neighbors x0 := (hq _ (List.mem_cons_self _ _)).2
          obtain ⟨hy0v, hy0ne, _⟩ := (mem_neighbors c x0 y0).mp hy0
          by_cases hch : (revise c d x0 y0).1 = true
          · obtain ⟨i, j, hov, hd1, w0, hw0, hws⟩ := revise_true_spec c d x0 y0 hch
            by_cases he : ((revise c d x0 y0).2 x0).isEmpty = true
            · rw [ac3LoopF_cons_fail c fuel d x0 y0 rest hch he] at h
              exact absurd (congrArg (fun o => o.map Prod.fst) h) (by simp)
            · have he2 : ((revise c d x0 y0).2 x0).isEmpty = false :=
                Bool.eq_false_iff.mpr he
              rw [ac3LoopF_cons_cont c fuel d x0 y0 rest hch he2] at h
              have hq2 : ∀ p ∈ rest ++
                  ((c.neighbors x0).filter (fun z => decide (z ≠ y0))).map (fun z => (z, x0)),
                  p.1 ∈ c.vars ∧ p.2 ∈ c.neighbors p.1 := by
                intro p hp
                rcases List.mem_append.mp hp with hp1 | hp2
                · exact hq p (List.mem_cons_of_mem _ hp1)
                · obtain ⟨z, hz, hzz⟩ := List.mem_map.mp hp2
                  have hz2 := (List.mem_filter.mp hz).1
                  obtain ⟨hzv, hzx, hzov⟩ := (mem_neighbors c x0 z).mp hz2
                  obtain ⟨⟨iz, jz⟩, hovz⟩ := Option.isSome_iff_exists.mp hzov
                  rw [← hzz]
                  refine ⟨hzv, ?_⟩
                  apply (mem_neighbors c z x0).mpr
                  refine ⟨hx0, fun hzx2 => hzx hzx2.symm, ?_⟩
                  rw [hsym x0 hx0 z hzv iz jz hovz]
                  rfl
              refine ih (revise c d x0 y0).2 _ d2 hq2 ?_ h
              intro u hu v hv
              rcases hinv u hu v hv with hm | hok
              · rcases List.mem_cons.mp hm with heq | hrest
                · have hu0 : u = x0 := congrArg Prod.fst heq
                  have hv0 : v = y0 := congrArg Prod.snd heq
                  subst hu0
                  subst hv0
                  right
                  intro i2 j2 hov2 w hw
                  rw [hov] at hov2
                  have hij : i = i2 ∧ j = j2 := by
                    have := Option.some.inj hov2
                    exact ⟨congrArg Prod.fst this, congrArg Prod.snd this⟩
                  obtain ⟨hi2, hj2⟩ := hij
                  subst hi2
                  subst hj2
                  rw [hd1] at hw
                  rw [updateD_self] at hw
                  have hmem := List.mem_filter.mp hw
                  rw [hd1, updateD_ne _ _ _ hy0ne]
                  exact hmem.2
                · exact Or.inl (List.mem_append_left _ hrest)
              · by_cases hux : u = x0
                · subst hux
                  right
                  intro i2 j2 hov2 w hw
                  have hvne : v ≠ u := ((mem_neighbors c u v).mp hv).2.1
                  rw [hd1] at hw
                  rw [updateD_self] at hw
                  have hmem := List.mem_filter.mp hw
                  rw [hd1, updateD_ne _ _ _ hvne]
                  exact hok i2 j2 hov2 w hmem.1
                · by_cases hvx : v = x0
                  · subst hvx
                    by_cases huy : u = y0
                    · subst huy
                      right
                      intro i2 j2 hov2 w hw
                      have hvy : c.overlaps u v = some (j, i) :=
                        hsym v hx0 u hy0v i j hov
                      rw [hvy] at hov2
                      have hij : j = i2 ∧ i = j2 := by
                        have := Option.some.inj hov2
                        exact ⟨congrArg Prod.fst this, congrArg Prod.snd this⟩
                      obtain ⟨hi2, hj2⟩ := hij
                      subst hi2
                      subst hj2
                      rw [hd1] at hw
                      rw [updateD_ne _ _ _ hy0ne] at hw
                      have hsup := hok j i hvy w hw
                      rw [hasSupport_iff] at hsup
                      obtain ⟨w2, hw2, hagree⟩ := hsup
                      rw [hd1, updateD_self, hasSupport_iff]
                      refine ⟨w2, ?_, hagree⟩
                      apply List.mem_filter.mpr
                      refine ⟨hw2, ?_⟩
                      rw [hasSupport_iff]
                      exact ⟨w, hw, hagree.symm⟩
                    · left
                      apply List.mem_append_right
                      apply List.mem_map.mpr
                      refine ⟨u, ?_, rfl⟩
                      apply List.mem_filter.mpr
                      obtain ⟨hx0v2, hx0u, hovux⟩ := (mem_neighbors c u v).mp hv
                      obtain ⟨⟨iu, ju⟩, hovu⟩ := Option.isSome_iff_exists.mp hovux
                      refine ⟨?_, by simp [huy]⟩
                      apply (mem_neighbors c v u).mpr
                      refine ⟨hu, hux, ?_⟩
                      rw [hsym u hu v hx0 iu ju hovu]
                      rfl
                  · right
                    intro i2 j2 hov2 w hw
                    rw [hd1] at hw
                    rw [updateD_ne _ _ _ hux] at hw
                    rw [hd1, updateD_ne _ _ _ hvx]
                    exact hok i2 j2 hov2 w hw
          · have hch2 : (revise c d x0 y0).1 = false := Bool.eq_false_iff.mpr hch
            rw [ac3LoopF_cons_nochange c fuel d x0 y0 rest hch2] at h
            refine ih d rest d2 (fun p hp => hq p (List.mem_cons_of_mem _ hp)) ?_ h
            intro u hu v hv
            rcases hinv u hu v hv with hm | hok
            · rcases List.mem_cons.mp hm with heq | hrest
              · have hu0 : u = x0 := congrArg Prod.fst heq
                have hv0 : v = y0 := congrArg Prod.snd heq
                subst hu0
                subst hv0
                exact Or.inr (revise_false_arcOk c d u v hch2)
              · exact Or.inl hrest
            · exact Or.inr hok

theorem sum_map_le_sum_map (lv : List Variable) (f g : Variable → Nat)
    (hle : ∀ v, g v ≤ f v) : (lv.map g).sum ≤ (lv.map f).sum := by
  induction lv with
  | nil => simp
  | cons u rest ih =>
      simp only [List.map_cons, List.sum_cons]
      exact Nat.add_le_add (hle u) ih

theorem sum_map_lt_of_mem (lv : List Variable) (f g : Variable → Nat)
    (hle : ∀ v, g v ≤ f v) (x : Variable) (hx : x ∈ lv) (hlt : g x < f x) :
    (lv.map g).sum < (lv.map f).sum := by
  induction lv with
  | nil => cases hx
  | cons u rest ih =>
      simp only [List.map_cons, List.sum_cons]
      rcases List.mem_cons.mp hx with heq | hmem
      · rw [← heq]
        exact Nat.add_lt_add_of_lt_of_le hlt (sum_map_le_sum_map rest f g hle)
      · exact Nat.add_lt_add_of_le_of_lt (hle u) (ih hmem)

theorem totalSize_update_lt (c : Crossword) (d : Domains) (x : Variable)
    (hx : x ∈ c.vars) (l : List Word) (hlt : l.length < (d x).length) :
    totalSize c (updateD d x l) < totalSize c d := by
  apply sum_map_lt_of_mem c.vars (fun v => (d v).length)
    (fun v => (updateD d x l v).length) ?_ x hx ?_
  · intro v
    show (updateD d x l v).length ≤ (d v).length
    by_cases hv : v = x
    · subst hv
      rw [updateD_self]
      exact Nat.le_of_lt hlt
    · rw [updateD_ne _ _ _ hv]
  · show (updateD d x l x).length < (d x).length
    rw [updateD_self]
    exact hlt

theorem revise_true_totalSize (c : Crossword) (d : Domains) (x y : Variable)
    (hx : x ∈ c.vars) (h : (revise c d x y).1 = true) :
    totalSize c (revise c d x y).2 < totalSize c d := by
  obtain ⟨i, j, hov, hd1, w0, hw0, hws⟩ := revise_true_spec c d x y h
  rw [hd1]
  apply totalSize_update_lt c d x hx
  apply List.length_filter_lt_length_iff_exists.mpr
  exact ⟨w0, hw0, by simp [hws]⟩

theorem neighbors_length_le (c : Crossword) (x : Variable) :
    (c.neighbors x).length ≤ c.vars.length :=
  List.length_filter_le _ _

/-- The fuel bound of `ac3Fuel` suffices: the loop never exhausts its fuel
(each step pops the queue, and each shrinking step, of which there are at
most `totalSize` many, re-enqueues at most the number of variables). -/
theorem ac3LoopF_adequate (c : Crossword) :
    ∀ fuel (d : Domains) (q : List (Variable × Variable)),
      (∀ p ∈ q, p.1 ∈ c.vars) →
      q.length + totalSize c d * (c.vars.length + 1) < fuel →
      (ac3LoopF c fuel d q).isSome = true := by
  intro fuel
  induction fuel with
  | zero => intro d q hq hlt; exact absurd hlt (Nat.not_lt_zero _)
  | succ fuel ih =>
      intro d q hq hlt
      cases q with
      | nil => rw [ac3LoopF_nil]; rfl
      | cons p rest =>
          obtain ⟨x, y⟩ := p
          have hx : x ∈ c.vars := hq (x, y) (List.mem_cons_self _ _)
          by_cases hch : (revise c d x y).1 = true
          · by_cases he : ((revise c d x y).2 x).isEmpty = true
            · rw [ac3LoopF_cons_fail c fuel d x y rest hch he]; rfl
            · have he2 : ((revise c d x y).2 x).isEmpty = false :=
                Bool.eq_false_iff.mpr he
              rw [ac3LoopF_cons_cont c fuel d x y rest hch he2]
              apply ih
              · intro p hp
                rcases List.mem_append.mp hp with hp1 | hp2
                · exact hq p (List.mem_cons_of_mem _ hp1)
                · obtain ⟨z, hz, hzz⟩ := List.mem_map.mp hp2
                  have hz2 := (List.mem_filter.mp hz).1
                  rw [← hzz]
                  exact neighbors_subset_vars c x z hz2
              · have hts : totalSize c (revise c d x y).2 < totalSize c d :=
                  revise_true_totalSize c d x y hx hch
                have hna :
                    (((c.neighbors x).filter (fun z => decide (z ≠ y))).map
                      (fun z => (z, x))).length ≤ c.vars.length := by
                  rw [List.length_map]
                  exact Nat.le_trans (List.length_filter_le _ _) (neighbors_length_le c x)
                rw [List.length_append]
                have hmul : totalSize c (revise c d x y).2 * (c.vars.length + 1) +
                    (c.vars.length + 1) ≤ totalSize c d * (c.vars.length + 1) := by
                  have h1 : (totalSize c (revise c d x y).2 + 1) * (c.vars.length + 1) ≤
                      totalSize c d * (c.vars.length + 1) :=
                    Nat.mul_le_mul_right _ hts
                  calc totalSize c (revise c d x y).2 * (c.vars.length + 1) +
                        (c.vars.length + 1)
                      = (totalSize c (revise c d x y).2 + 1) * (c.vars.length + 1) := by ring
                    _ ≤ totalSize c d * (c.vars.length + 1) := h1
                simp only [List.length_cons] at hlt
                omega
          · have hch2 : (revise c d x y).1 = false := Bool.eq_false_iff.mpr hch
            rw [ac3LoopF_cons_nochange c fuel d x y rest hch2]
            apply ih d rest (fun p hp => hq p (List.mem_cons_of_mem _ hp))
            simp only [List.length_cons] at hlt
            omega

/-- The wrapped ac3 never runs out of fuel: on any domains it returns the
source's Boolean outcome together with the final domains. -/
theorem ac3_total (c : Crossword) (d : Domains) : (ac3 c d none).isSome = true := by
  show (ac3LoopF c (ac3Fuel c d (initialArcs c)) d (initialArcs c)).isSome = true
  apply ac3LoopF_adequate c (ac3Fuel c d (initialArcs c)) d (initialArcs c)
  · intro p hp
    exact (mem_initialArcs c p hp).1
  · unfold ac3Fuel
    omega

theorem lookupA_none_iff (a : Assignment) (v : Variable) :
    lookupA a v = none ↔ v ∉ a.map Prod.fst := by
  induction a with
  | nil => simp [lookupA]
  | cons p rest ih =>
      obtain ⟨u, w⟩ := p
      by_cases h : u = v
      · subst h
        simp [lookupA]
      · simp only [lookupA, if_neg h, List.map_cons, List.mem_cons]
        rw [ih]
        constructor
        · intro hnv hor
          rcases hor with heq | hmem
          · exact h heq.symm
          · exact hnv hmem
        · intro hor hmem
          exact hor (Or.inr hmem)

theorem lookupA_isSome_iff (a : Assignment) (v : Variable) :
    (lookupA a v).isSome = true ↔ v ∈ a.map Prod.fst := by
  cases hl : lookupA a v with
  | none =>
      simp only [Option.isSome_none]
      constructor
      · intro hf; exact absurd hf (by simp)
      · intro hm
        exact absurd hl ((not_iff_not.mpr (lookupA_none_iff a v)).mpr (by simp [hm]))
  | some w =>
      simp only [Option.isSome_some, true_iff]
      by_contra hm
      rw [← lookupA_none_iff a v] at hm
      rw [hl] at hm
      exact absurd hm (by simp)

theorem lookupA_some_iff (a : Assignment) (h : keysNodup a) (v : Variable) (w : Word) :
    lookupA a v = some w ↔ (v, w) ∈ a := by
  induction a with
  | nil => simp [lookupA]
  | cons p rest ih =>
      obtain ⟨u, wu⟩ := p
      have hnd : keysNodup rest := by
        have := h
        simp only [keysNodup, List.map_cons, List.nodup_cons] at this
        exact this.2
      have hun : u ∉ rest.map Prod.fst := by
        have := h
        simp only [keysNodup, List.map_cons, List.nodup_cons] at this
        exact this.1
      by_cases huv : u = v
      · subst huv
        constructor
        · intro hw
          have hw2 : wu = w := Option.some.inj (by simpa [lookupA] using hw)
          rw [← hw2]
          exact List.mem_cons_self _ _
        · intro hmem
          rcases List.mem_cons.mp hmem with heq | hmem2
          · have hw2 : w = wu := congrArg Prod.snd heq
            simp [lookupA, hw2]
          · exact absurd (List.mem_map.mpr ⟨(u, w), hmem2, rfl⟩) hun
      · simp only [lookupA, if_neg huv, List.mem_cons, Prod.mk.injEq]
        rw [ih hnd]
        constructor
        · exact Or.inr
        · intro hor
          rcases hor with ⟨hu, _⟩ | hmem
          · exact absurd hu.symm huv
          · exact hmem

theorem neighborsOk_char (c : Crossword) (a : Assignment) (h : keysNodup a)
    (v : Variable) (w : Word) (hv : lookupA a v = some w) :
    neighborsOk c a v = true ↔
      ∀ q ∈ a, q.1 ∈ c.neighbors v → ∀ i j, c.overlaps v q.1 = some (i, j) →
        w.getD i ' ' = q.2.getD j ' ' := by
  unfold neighborsOk
  rw [List.all_eq_true]
  constructor
  · intro hall q hq hqn i j hov
    have hthis := hall q.1 hqn
    have hlq : lookupA a q.1 = some q.2 := (lookupA_some_iff a h q.1 q.2).mpr hq
    simp only [hlq, hov, hv] at hthis
    exact of_decide_eq_true hthis
  · intro hp nb hnb
    cases hlnb : lookupA a nb with
    | none => simp [hlnb]
    | some wn =>
        cases hov : c.overlaps v nb with
        | none => simp [hlnb, hov]
        | some pij =>
            obtain ⟨i, j⟩ := pij
            simp only [hlnb, hov, hv]
            apply decide_eq_true
            exact hp (nb, wn) ((lookupA_some_iff a h nb wn).mp hlnb) hnb i j hov

theorem consistentGo_iff (c : Crossword) (a : Assignment) :
    ∀ (l : List (Variable × Word)) (seen : List Word),
      consistentGo c a l seen = true ↔
        ((∀ p ∈ l, (p.2 : Word).length = p.1.length ∧ neighborsOk c a p.1 = true) ∧
         (l.map Prod.snd).Nodup ∧ (∀ w ∈ l.map Prod.snd, w ∉ seen)) := by
  intro l
  induction l with
  | nil => intro seen; simp [consistentGo]
  | cons p rest ih =>
      intro seen
      obtain ⟨var, word⟩ := p
      simp only [consistentGo]
      by_cases hlen : word.length ≠ var.length
      · rw [if_pos hlen]
        constructor
        · intro hf; exact absurd hf (by simp)
        · rintro ⟨h1, _, _⟩
          exact absurd (h1 (var, word) (List.mem_cons_self _ _)).1 hlen
      · rw [if_neg hlen]
        push_neg at hlen
        by_cases hseen : word ∈ seen
        · rw [if_pos hseen]
          constructor
          · intro hf; exact absurd hf (by simp)
          · rintro ⟨_, _, h3⟩
            exact absurd hseen (h3 word (by simp))
        · rw [if_neg hseen]
          by_cases hnb : neighborsOk c a var = true
          · rw [if_pos hnb, ih (word :: seen)]
            constructor
            · rintro ⟨hA, hB, hC⟩
              refine ⟨?_, ?_, ?_⟩
              · intro p hp
                rcases List.mem_cons.mp hp with heq | hp2
                · rw [heq]; exact ⟨hlen, hnb⟩
                · exact hA p hp2
              · rw [List.map_cons, List.nodup_cons]
                refine ⟨?_, hB⟩
                intro hmem
                exact (hC word hmem) (List.mem_cons_self _ _)
              · intro w hw
                rw [List.map_cons, List.mem_cons] at hw
                rcases hw with heq | hmem
                · rw [heq]; exact hseen
                · intro hws
                  exact (hC w hmem) (List.mem_cons_of_mem _ hws)
            · rintro ⟨hA, hB, hC⟩
              rw [List.map_cons, List.nodup_cons] at hB
              refine ⟨?_, hB.2, ?_⟩
              · intro p hp
                exact hA p (List.mem_cons_of_mem _ hp)
              · intro w hw
                rw [List.mem_cons]
                push_neg
                refine ⟨?_, ?_⟩
                · intro heq
                  rw [heq] at hw
                  exact hB.1 hw
                · exact hC w (by rw [List.map_cons]; exact List.mem_cons_of_mem _ hw)
          · rw [if_neg hnb]
            constructor
            · intro hf; exact absurd hf (by simp)
            · rintro ⟨h1, _, _⟩
              exact absurd (h1 (var, word) (List.mem_cons_self _ _)).2 hnb

/-- Full characterization of CrosswordCreator.consistent on a dict-shaped
assignment: length fit, global word uniqueness, and agreement of every
assigned neighboring pair at the overlap offsets. -/
theorem consistent_char (c : Crossword) (a : Assignment) (h : keysNodup a) :
    consistent c a = true ↔
      ((∀ p ∈ a, (p.2 : Word).length = p.1.length) ∧
       (a.map Prod.snd).Nodup ∧
       (∀ p ∈ a, ∀ q ∈ a, q.1 ∈ c.neighbors p.1 → ∀ i j,
          c.overlaps p.1 q.1 = some (i, j) → p.2.getD i ' ' = q.2.getD j ' ')) := by
  unfold consistent
  rw [consistentGo_iff c a a []]
  constructor
  · rintro ⟨hA, hB, _⟩
    refine ⟨fun p hp => (hA p hp).1, hB, ?_⟩
    intro p hp q hq hqn i j hov
    have hnb := (hA p hp).2
    have hlp : lookupA a p.1 = some p.2 := (lookupA_some_iff a h _ _).mpr hp
    exact (neighborsOk_char c a h p.1 p.2 hlp).mp hnb q hq hqn i j hov
  · rintro ⟨hA, hB, hC⟩
    refine ⟨?_, hB, by simp⟩
    intro p hp
    refine ⟨hA p hp, ?_⟩
    have hlp : lookupA a p.1 = some p.2 := (lookupA_some_iff a h _ _).mpr hp
    exact (neighborsOk_char c a h p.1 p.2 hlp).mpr
      (fun q hq hqn i j hov => hC p hp q hq hqn i j hov)

theorem foldl_min_mem (key : Variable → Nat × Int) :
    ∀ (l : List Variable) (b : Variable),
      l.foldl (fun best u => if keyLt (key u) (key best) then u else best) b = b ∨
      l.foldl (fun best u => if keyLt (key u) (key best) then u else best) b ∈ l := by
  intro l
  induction l with
  | nil => intro b; left; rfl
  | cons u rest ih =>
      intro b
      simp only [List.foldl_cons]
      rcases ih (if keyLt (key u) (key b) then u else b) with h | h
      · rw [h]
        by_cases hk : keyLt (key u) (key b) = true
        · right
          rw [if_pos hk]
          exact List.mem_cons_self _ _
        · left
          rw [if_neg hk]
      · right
        exact List.mem_cons_of_mem _ h

theorem argminBy_mem (key : Variable → Nat × Int) (l : List Variable) (v : Variable)
    (h : argminBy key l = some v) : v ∈ l := by
  cases l with
  | nil => exact absurd h (by simp [argminBy])
  | cons u rest =>
      have h2 : rest.foldl (fun best u => if keyLt (key u) (key best) then u else best) u = v :=
        Option.some.inj h
      rcases foldl_min_mem key rest u with h3 | h3
      · rw [← h2, h3]
        exact List.mem_cons_self _ _
      · rw [← h2]
        exact List.mem_cons_of_mem _ h3

theorem select_unassigned_spec (c : Crossword) (doms : Domains) (a : Assignment)
    (v : Variable) (h : select_unassigned_variable c doms a = some v) :
    v ∈ c.vars ∧ lookupA a v = none := by
  unfold select_unassigned_variable at h
  have hm := argminBy_mem _ _ _ h
  have hmf := List.mem_filter.mp hm
  exact ⟨hmf.1, Option.isNone_iff_eq_none.mp hmf.2⟩

theorem tryValuesWith_some (bt : Assignment → Option Assignment) (c : Crossword)
    (a : Assignment) (var : Variable) :
    ∀ (values : List Word) (r : Assignment),
      tryValuesWith bt c a var values = some r →
      ∃ w ∈ values, consistent c ((var, w) :: a) = true ∧ bt ((var, w) :: a) = some r := by
  intro values
  induction values with
  | nil => intro r h; exact absurd h (by simp [tryValuesWith])
  | cons w rest ih =>
      intro r h
      simp only [tryValuesWith] at h
      by_cases hc : consistent c ((var, w) :: a) = true
      · rw [if_pos hc] at h
        by_cases ht : truthy (bt ((var, w) :: a)) = true
        · rw [if_pos ht] at h
          exact ⟨w, List.mem_cons_self _ _, hc, h⟩
        · rw [if_neg ht] at h
          obtain ⟨w2, hw2, hcc, hbt⟩ := ih r h
          exact ⟨w2, List.mem_cons_of_mem _ hw2, hcc, hbt⟩
      · rw [if_neg hc] at h
        obtain ⟨w2, hw2, hcc, hbt⟩ := ih r h
        exact ⟨w2, List.mem_cons_of_mem _ hw2, hcc, hbt⟩

/-- Soundness of the search: started from a dict-shaped consistent
assignment, any returned assignment is dict-shaped, consistent and
complete. -/
theorem backtrackF_sound (c : Crossword) (doms : Domains) :
    ∀ fuel (a r : Assignment), keysNodup a → consistent c a = true →
      backtrackF c doms fuel a = some r →
      keysNodup r ∧ consistent c r = true ∧ assignment_complete c r = true := by
  intro fuel
  induction fuel with
  | zero => intro a r _ _ h; exact absurd h (by simp [backtrackF])
  | succ fuel ih =>
      intro a r hnd hcons h
      simp only [backtrackF] at h
      by_cases hcomp : assignment_complete c a = true
      · rw [if_pos hcomp] at h
        have har : a = r := Option.some.inj h
        rw [← har]
        exact ⟨hnd, hcons, hcomp⟩
      · rw [if_neg hcomp] at h
        cases hsel : select_unassigned_variable c doms a with
        | none => rw [hsel] at h; exact absurd h (by simp)
        | some var =>
            rw [hsel] at h
            obtain ⟨hvv, hvn⟩ := select_unassigned_spec c doms a var hsel
            obtain ⟨w, hw, hcc, hbt⟩ := tryValuesWith_some _ c a var _ r h
            have hnd2 : keysNodup ((var, w) :: a) := by
              simp only [keysNodup, List.map_cons, List.nodup_cons]
              exact ⟨(lookupA_none_iff a var).mp hvn, hnd⟩
            exact ih ((var, w) :: a) r hnd2 hcc hbt

theorem tryValuesWith_none (bt : Assignment → Option Assignment) (c : Crossword)
    (a : Assignment) (var : Variable) :
    ∀ values, (∀ w ∈ values, bt ((var, w) :: a) = none) →
      tryValuesWith bt c a var values = none := by
  intro values
  induction values with
  | nil => intro _; rfl
  | cons w rest ih =>
      intro hall
      simp only [tryValuesWith]
      by_cases hc : consistent c ((var, w) :: a) = true
      · rw [if_pos hc, hall w (List.mem_cons_self _ _)]
        simp only [truthy, Bool.false_eq_true, if_neg]
        exact ih (fun w2 hw2 => hall w2 (List.mem_cons_of_mem _ hw2))
      · rw [if_neg hc]
        exact ih (fun w2 hw2 => hall w2 (List.mem_cons_of_mem _ hw2))

/-- A variable of the puzzle with an empty domain and no binding can never be
assigned, so the search must fail. -/
theorem backtrackF_blocked (c : Crossword) (doms : Domains) (v : Variable)
    (hv : v ∈ c.vars) (hd : doms v = []) :
    ∀ fuel (a : Assignment), lookupA a v = none → backtrackF c doms fuel a = none := by
  intro fuel
  induction fuel with
  | zero => intro a _; rfl
  | succ fuel ih =>
      intro a hla
      simp only [backtrackF]
      have hcomp : ¬assignment_complete c a = true := by
        intro h2
        have := (List.all_eq_true.mp h2) v hv
        rw [hla] at this
        exact absurd this (by simp)
      rw [if_neg hcomp]
      cases hsel : select_unassigned_variable c doms a with
      | none => rfl
      | some var =>
          show tryValuesWith (backtrackF c doms fuel) c a var
            (order_domain_values c doms var a) = none
          by_cases hvv : var = v
          · have hord : order_domain_values c doms var a = [] := by
              rw [hvv]
              simp [order_domain_values, hd, sortByCount]
            rw [hord]
            rfl
          · apply tryValuesWith_none
            intro w _
            apply ih
            simp [lookupA, hvv, hla]

theorem backtrackCalls_pos (c : Crossword) (doms : Domains) :
    ∀ fuel (a : Assignment), 1 ≤ backtrackCalls c doms fuel a := by
  intro fuel a
  cases fuel with
  | zero => exact Nat.le_refl 1
  | succ fuel =>
      simp only [backtrackCalls]
      by_cases hcomp : assignment_complete c a = true
      · rw [if_pos hcomp]
      · rw [if_neg hcomp]
        cases select_unassigned_variable c doms a with
        | none => exact Nat.le_refl 1
        | some var => exact Nat.le_add_right 1 _

/-! The claims. -/

/-- Claim C1: whenever solve returns an assignment rather than none, that
assignment is complete (every slot of the puzzle is mapped to a word) and
consistent: every assigned word's length equals its slot's length, no two
slots hold the identical word, and every pair of assigned neighboring slots
agrees at the overlap offsets. -/
theorem spec_C1 (c : Crossword) (r : Assignment) (h : solve c = some r) :
    assignment_complete c r = true ∧
    (∀ p ∈ r, (p.2 : Word).length = p.1.length) ∧
    (r.map Prod.snd).Nodup ∧
    (∀ p ∈ r, ∀ q ∈ r, q.1 ∈ c.neighbors p.1 → ∀ i j,
      c.overlaps p.1 q.1 = some (i, j) → p.2.getD i ' ' = q.2.getD j ' ') := by
  have hcons0 : consistent c ([] : Assignment) = true := rfl
  have hnd0 : keysNodup ([] : Assignment) := List.nodup_nil
  have hres : keysNodup r ∧ consistent c r = true ∧ assignment_complete c r = true := by
    cases hac : ac3 c (enforce_node_consistency c (initDomains c)) none with
    | none =>
        have h2 : backtrackF c (enforce_node_consistency c (initDomains c))
            (c.vars.length + 1) [] = some r := by
          unfold solve at h
          rw [hac] at h
          exact h
        exact backtrackF_sound c _ _ [] r hnd0 hcons0 h2
    | some p =>
        have h2 : backtrackF c p.2 (c.vars.length + 1) [] = some r := by
          unfold solve at h
          rw [hac] at h
          exact h
        exact backtrackF_sound c _ _ [] r hnd0 hcons0 h2
  obtain ⟨hnd, hcons, hcomp⟩ := hres
  have hch := (consistent_char c r hnd).mp hcons
  exact ⟨hcomp, hch.1, hch.2.1, hch.2.2⟩

theorem spec_C1_witness :
    assignment_complete exC1 [(exA1, ['a', 'b'])] = true ∧
    (∀ p ∈ [(exA1, ['a', 'b'])], (p.2 : Word).length = p.1.length) ∧
    ([(exA1, ['a', 'b'])].map Prod.snd).Nodup ∧
    (∀ p ∈ [(exA1, ['a', 'b'])], ∀ q ∈ [(exA1, ['a', 'b'])],
      q.1 ∈ exC1.neighbors p.1 → ∀ i j,
      exC1.overlaps p.1 q.1 = some (i, j) → p.2.getD i ' ' = q.2.getD j ' ') :=
  spec_C1 exC1 [(exA1, ['a', 'b'])] rfl

/-- Claim C2 counterexample: on the one-slot puzzle `exC2` whose slot has no
neighbor and whose domain is empty from the start (so it stays empty for the
whole pass), ac3 with no initial arcs returns true, not false, refuting
"whenever any slot's domain is or becomes empty during the pass, ac3
returns false". -/
theorem spec_C2_counterexample :
    (ac3 exC2 (fun _ => ([] : List Word)) none).map Prod.fst = some true ∧
    (ac3 exC2 (fun _ => ([] : List Word)) none).map (fun r => r.2 exV2) = some [] ∧
    exV2 ∈ exC2.vars :=
  ⟨rfl, rfl, by decide⟩

/-- Claim C2 amended: ac3 (with no initial arcs) returns false exactly when
the pass shrinks some slot's previously nonempty domain to empty; a domain
that is already empty at entry and is never revised does not by itself cause
a false result. -/
theorem spec_C2_amended (c : Crossword) (d : Domains) (b : Bool) (d2 : Domains)
    (h : ac3 c d none = some (b, d2)) :
    b = false ↔ ∃ v ∈ c.vars, d v ≠ [] ∧ d2 v = [] := by
  have h2 : ac3LoopF c (ac3Fuel c d (initialArcs c)) d (initialArcs c) = some (b, d2) := h
  constructor
  · intro hb
    rw [hb] at h2
    exact ac3LoopF_false_empties c _ d _ d2 (fun p hp => (mem_initialArcs c p hp).1) h2
  · rintro ⟨v, hv, hne, hemp⟩
    by_contra hb
    have hb2 : b = true := by
      cases b
      · exact absurd rfl hb
      · rfl
    rw [hb2] at h2
    exact (ac3LoopF_true_preserves c _ d _ d2 h2 v hne) hemp

theorem spec_C2_witness :
    (false = false ↔ ∃ v ∈ exC3.vars,
      enforce_node_consistency exC3 (initDomains exC3) v ≠ [] ∧
      updateD (enforce_node_consistency exC3 (initDomains exC3)) exB3 [] v = []) :=
  spec_C2_amended exC3 (enforce_node_consistency exC3 (initDomains exC3)) false
    (updateD (enforce_node_consistency exC3 (initDomains exC3)) exB3 []) rfl

/-- Claim C3 counterexample: on `exC3`, ac3 (after node consistency) reports
failure, yet solve still performs a backtrack call (the count of backtrack
invocations during solve is 1, not 0): the source calls backtrack
unconditionally, so failure of ac3 does not short-circuit the search. -/
theorem spec_C3_counterexample :
    (ac3 exC3 (enforce_node_consistency exC3 (initDomains exC3)) none).map Prod.fst =
      some false ∧
    solveBacktrackCalls exC3 = 1 :=
  ⟨rfl, rfl⟩

/-- Claim C3 amended: solve runs node consistency, then ac3 with no initial
arcs, and then calls backtrack on the empty assignment unconditionally,
ignoring ac3's Boolean result (at least one backtrack invocation happens in
every run); still, when ac3 reports failure some domain has been emptied,
the search is blocked, and solve returns none. -/
theorem spec_C3_amended (c : Crossword) (b : Bool) (d2 : Domains)
    (h : ac3 c (enforce_node_consistency c (initDomains c)) none = some (b, d2)) :
    1 ≤ solveBacktrackCalls c ∧ (b = false → solve c = none) := by
  constructor
  · unfold solveBacktrackCalls
    cases hac : ac3 c (enforce_node_consistency c (initDomains c)) none with
    | none => exact backtrackCalls_pos c _ _ []
    | some p => exact backtrackCalls_pos c _ _ []
  · intro hb
    rw [hb] at h
    obtain ⟨v, hv, hne, hemp⟩ :=
      ac3LoopF_false_empties c _ _ _ d2 (fun p hp => (mem_initialArcs c p hp).1) h
    unfold solve
    rw [h]
    exact backtrackF_blocked c d2 v hv hemp _ [] rfl

theorem spec_C3_witness :
    1 ≤ solveBacktrackCalls exC3 ∧ (false = false → solve exC3 = none) :=
  spec_C3_amended exC3 false
    (updateD (enforce_node_consistency exC3 (initDomains exC3)) exB3 []) rfl

/-- Claim C4: when the overlap relation is symmetric on the puzzle's
variables (as the spec guarantees of the collaborator), a successful ac3
pass with no initial arcs leaves every neighbor pair arc-consistent: every
word remaining in domain(x) has a word in domain(y) agreeing at the overlap
offsets. -/
theorem spec_C4 (c : Crossword) (d : Domains) (d2 : Domains)
    (hsym : overlapsSymmB c = true)
    (h : ac3 c d none = some (true, d2)) :
    ∀ x ∈ c.vars, ∀ y ∈ c.neighbors x, arcOk c d2 x y := by
  have h2 : ac3LoopF c (ac3Fuel c d (initialArcs c)) d (initialArcs c) = some (true, d2) := h
  apply ac3LoopF_arc_sound c (overlapsSymm_spec c hsym) _ d _ d2 (mem_initialArcs c) ?_ h2
  intro x hx y hy
  exact Or.inl (initialArcs_complete c x hx y hy)

theorem spec_C4_witness :
    hasSupport 0 0 ['a', 'b'] (updateD exD4 exA4 [['a', 'b']] exB4) = true :=
  spec_C4 exC4 exD4 (updateD exD4 exA4 [['a', 'b']]) (by decide) rfl
    exA4 (by decide) exB4 (by decide) 0 0 (by decide) ['a', 'b'] (by decide)

/-- Claim C5: on a dict-shaped assignment (distinct keys), consistent is
true iff every assigned word's length equals its slot's length, the assigned
words are pairwise distinct, and every assigned neighboring pair agrees at
the overlap offsets. -/
theorem spec_C5 (c : Crossword) (a : Assignment) (h : keysNodup a) :
    consistent c a = true ↔
      ((∀ p ∈ a, (p.2 : Word).length = p.1.length) ∧
       (a.map Prod.snd).Nodup ∧
       (∀ p ∈ a, ∀ q ∈ a, q.1 ∈ c.neighbors p.1 → ∀ i j,
          c.overlaps p.1 q.1 = some (i, j) → p.2.getD i ' ' = q.2.getD j ' ')) :=
  consistent_char c a h

theorem spec_C5_witness :
    consistent exC4 [(exA4, ['a', 'b']), (exB4, ['a', 'c'])] = true ↔
      ((∀ p ∈ [(exA4, ['a', 'b']), (exB4, ['a', 'c'])],
          (p.2 : Word).length = p.1.length) ∧
       ([(exA4, ['a', 'b']), (exB4, ['a', 'c'])].map Prod.snd).Nodup ∧
       (∀ p ∈ [(exA4, ['a', 'b']), (exB4, ['a', 'c'])],
        ∀ q ∈ [(exA4, ['a', 'b']), (exB4, ['a', 'c'])],
          q.1 ∈ exC4.neighbors p.1 → ∀ i j,
          exC4.overlaps p.1 q.1 = some (i, j) → p.2.getD i ' ' = q.2.getD j ' ')) :=
  spec_C5 exC4 [(exA4, ['a', 'b']), (exB4, ['a', 'c'])] (by unfold keysNodup; decide)

/-- Claim C6: revise on a pair with no overlap is a no-op: the domains are
left unchanged and the result is false (the overlap relation being modelled
per the spec as an optional pair, the source's None-guard takes this
branch). -/
theorem spec_C6 (c : Crossword) (d : Domains) (x y : Variable)
    (h : c.overlaps x y = none) : revise c d x y = (false, d) :=
  revise_none c d x y h

theorem spec_C6_witness :
    revise exC2 (fun _ => ([] : List Word)) exV2 exV2 = (false, fun _ => ([] : List Word)) :=
  spec_C6 exC2 (fun _ => ([] : List Word)) exV2 exV2 rfl

/-- Claim C7: after enforce_node_consistency every domain of a puzzle slot
holds exactly its former words of the slot's length (wrong-length words
removed, nothing else), and the operation is idempotent. -/
theorem spec_C7 (c : Crossword) (d : Domains) (v : Variable) (hv : v ∈ c.vars) :
    (∀ w, w ∈ enforce_node_consistency c d v ↔ w ∈ d v ∧ w.length = v.length) ∧
    (∀ u, enforce_node_consistency c (enforce_node_consistency c d) u =
      enforce_node_consistency c d u) := by
  constructor
  · intro w
    rw [enforce_apply, if_pos hv, List.mem_filter]
    simp
  · intro u
    rw [enforce_apply c (enforce_node_consistency c d) u]
    by_cases hu : u ∈ c.vars
    · rw [if_pos hu, enforce_apply c d u, if_pos hu, List.filter_filter]
      apply List.filter_congr
      intro w _
      cases h : decide (w.length = u.length) <;> simp [h]
    · rw [if_neg hu, enforce_apply c d u, if_neg hu]

theorem spec_C7_witness :
    (∀ w, w ∈ enforce_node_consistency exC1 (initDomains exC1) exA1 ↔
      w ∈ initDomains exC1 exA1 ∧ w.length = exA1.length) ∧
    (∀ u, enforce_node_consistency exC1
        (enforce_node_consistency exC1 (initDomains exC1)) u =
      enforce_node_consistency exC1 (initDomains exC1) u) :=
  spec_C7 exC1 (initDomains exC1) exA1 (by decide)

/-- Claim C8: domains shrink monotonically: enforce_node_consistency, revise
and ac3 never add a word to any domain. -/
theorem spec_C8 (c : Crossword) (d : Domains) :
    (∀ v w, w ∈ enforce_node_consistency c d v → w ∈ d v) ∧
    (∀ x y v w, w ∈ (revise c d x y).2 v → w ∈ d v) ∧
    (∀ arcs b d2, ac3 c d arcs = some (b, d2) → ∀ v w, w ∈ d2 v → w ∈ d v) := by
  refine ⟨?_, ?_, ?_⟩
  · intro v w hw
    rw [enforce_apply] at hw
    by_cases hv : v ∈ c.vars
    · rw [if_pos hv] at hw
      exact (List.mem_filter.mp hw).1
    · rw [if_neg hv] at hw
      exact hw
  · exact fun x y v w hw => revise_subset c d x y v w hw
  · intro arcs b d2 hac v w hw
    cases arcs with
    | none => exact ac3LoopF_subset c _ d _ b d2 hac v w hw
    | some l =>
        have hac2 : (if l.isEmpty then
            ac3LoopF c (ac3Fuel c d (initialArcs c)) d (initialArcs c)
          else ac3LoopF c (ac3Fuel c d l) d l) = some (b, d2) := hac
        by_cases hl : l.isEmpty = true
        · rw [if_pos hl] at hac2
          exact ac3LoopF_subset c _ d _ b d2 hac2 v w hw
        · rw [if_neg hl] at hac2
          exact ac3LoopF_subset c _ d _ b d2 hac2 v w hw

theorem spec_C8_witness : ['a', 'b'] ∈ exD4 exA4 :=
  (spec_C8 exC4 exD4).2.2 none true (updateD exD4 exA4 [['a', 'b']]) rfl
    exA4 ['a', 'b'] (by decide)

/-- Claim C9: the search never mutates the caller's assignment: every
candidate is tried on the fresh extension (var, w) :: a of the one caller
assignment a, so sibling branches are isolated, and any assignment the
search returns contains the caller's assignment untouched as a suffix. -/
theorem spec_C9 (c : Crossword) (doms : Domains) :
    ∀ fuel (a r : Assignment), backtrackF c doms fuel a = some r →
      List.IsSuffix a r := by
  intro fuel
  induction fuel with
  | zero => intro a r h; exact absurd h (by simp [backtrackF])
  | succ fuel ih =>
      intro a r h
      simp only [backtrackF] at h
      by_cases hcomp : assignment_complete c a = true
      · rw [if_pos hcomp] at h
        rw [← Option.some.inj h]
      · rw [if_neg hcomp] at h
        cases hsel : select_unassigned_variable c doms a with
        | none => rw [hsel] at h; exact absurd h (by simp)
        | some var =>
            rw [hsel] at h
            obtain ⟨w, _, _, hbt⟩ := tryValuesWith_some _ c a var _ r h
            exact (List.suffix_cons (var, w) a).trans (ih ((var, w) :: a) r hbt)

theorem spec_C9_witness :
    List.IsSuffix [(exB4, ['a', 'c'])] [(exA4, ['a', 'b']), (exB4, ['a', 'c'])] :=
  spec_C9 exC4 exD4 2 [(exB4, ['a', 'c'])] [(exA4, ['a', 'b']), (exB4, ['a', 'c'])] rfl

/-- Claim C10: passing an explicitly empty list of arcs to ac3 is
indistinguishable from passing none (Python truthiness of the queue seed),
and in both cases the queue is seeded with exactly the arcs (x, y) for every
variable x and every neighbor y of x. -/
theorem spec_C10 (c : Crossword) (d : Domains) :
    ac3 c d (some []) = ac3 c d none ∧
    ac3 c d none = ac3LoopF c (ac3Fuel c d (initialArcs c)) d (initialArcs c) ∧
    (∀ x y, (x, y) ∈ initialArcs c ↔ x ∈ c.vars ∧ y ∈ c.neighbors x) := by
  refine ⟨rfl, rfl, ?_⟩
  intro x y
  constructor
  · intro h
    exact mem_initialArcs c (x, y) h
  · rintro ⟨hx, hy⟩
    exact initialArcs_complete c x hx y hy
